import Mathlib

/-!
Verification of the write-behind cache of collectd's rrdtool plugin
(src/rrdtool.c), shallowly embedded in Lean.

Modelling conventions:
* `time_t` and `int` values are modelled as `Int` (no overflow occurs in the
  ranges the claims exercise).
* The AVL tree `cache` (an external collaborator, utils_avltree.c, not part of
  the sources) is modelled as an association list from file name to cache
  entry; `avl_get` / `avl_insert` / `avl_remove` become `cacheGet` /
  `cacheSet` / `cacheRemove`.
* A buffered value is kept together with the timestamp that was passed to
  `rrd_cache_insert` alongside it (in the C code the timestamp is the leading
  field of the serialized record); this is the specification-level timestamp
  of the record.
* Fallible allocation: the only allocation failure any claim is about is the
  `realloc` of the `values` array inside `rrd_cache_insert` (lines 703-721),
  so that one is modelled by a boolean `reallocOk` parameter; all other
  allocations (`malloc` of a fresh entry, `strdup` of the value and of the
  key, the queue-entry allocation) are modelled as succeeding.
-/

/-- Mirror of `struct rrd_cache_s`: the per-file buffer.  `values` holds the
serialized records paired with their sample timestamps; `values_num` of the C
code is `values.length`.  `flags` is the two-valued enum
`{FLAG_NONE, FLAG_QUEUED}`, modelled as the boolean `queued`. -/
structure RRDCacheEntry where
  values : List (String × Int)
  first_value : Int
  last_value : Int
  queued : Bool
deriving DecidableEq

/-- The cache mapping, file name to entry (models the AVL tree). -/
abbrev RRDCache := List (String × RRDCacheEntry)

/-- Lookup (models `avl_get`). -/
def cacheGet : RRDCache → String → Option RRDCacheEntry
  | [], _ => none
  | (k, e) :: t, p => if k = p then some e else cacheGet t p

/-- Update the entry of key `p`, or append it if absent (models the combined
effect of mutating the entry returned by `avl_get`, resp. `avl_insert`). -/
def cacheSet : RRDCache → String → RRDCacheEntry → RRDCache
  | [], p, e => [(p, e)]
  | (k, e0) :: t, p, e => if k = p then (p, e) :: t else (k, e0) :: cacheSet t p e

/-- Remove the entry of key `p` (models `avl_remove`). -/
def cacheRemove : RRDCache → String → RRDCache
  | [], _ => []
  | (k, e0) :: t, p => if k = p then t else (k, e0) :: cacheRemove t p

/-- Error outcomes of `rrd_cache_insert` (the C code folds both into `-1`;
the distinction mirrors the spec's error taxonomy). -/
inductive RRDError where
  | nonMonotonic
  | allocFailure
deriving DecidableEq

/-- The entry `rrd_cache_insert` works on: the existing one, or the freshly
`malloc`ed one with `values_num = 0`, `values = NULL`, `first_value = 0`,
`last_value = 0`, `flags = FLAG_NONE` (lines 681-692). -/
def freshEntry : RRDCacheEntry := ⟨[], 0, 0, false⟩

/-- Lines 679-692 of `rrd_cache_insert`: look the entry up, allocating a
fresh one when absent. -/
def entryOrFresh (c : RRDCache) (p : String) : RRDCacheEntry :=
  match cacheGet c p with
  | some rc => rc
  | none => freshEntry

/-- Shallow embedding of `rrd_cache_insert` (src/rrdtool.c lines 670-781).

* Rejection: `if (rc->last_value >= value_time)` return `-1` without touching
  anything (lines 694-701).
* `reallocOk = false` models the `realloc` of the values array failing (lines
  703-721): the C code calls `avl_remove (cache, filename, ...)` -- removing
  the entry from the mapping whether it pre-existed or was freshly created in
  this call -- frees the entry, and returns `-1`.
* Otherwise the record is appended, `first_value` is set when
  `values_num == 1` after the append, `last_value := value_time`
  (lines 722-731), a fresh entry is inserted into the mapping (lines 733-753),
  and when `last_value - first_value >= cache_timeout` and the entry is not
  already queued it is enqueued and marked `FLAG_QUEUED` (lines 758-771; the
  queue-entry allocation is modelled as succeeding).
* The opportunistic `rrd_cache_flush` call (lines 773-775) is reached only on
  the success path and only when `cache_timeout > 0`; it is modelled on top
  of this function by `rrd_cache_insert_flush`, which the C1 trace semantics
  uses.  This core function by itself is the exact submit for
  `cache_timeout = 0` (the default); C2/C3/C6/C9/C10 concern paths that
  return before the call or state nothing the flush can affect. -/
def rrd_cache_insert (reallocOk : Bool) (cache_timeout : Int) (c : RRDCache)
    (filename value : String) (value_time : Int) :
    Except RRDError Unit × RRDCache :=
  let rc := entryOrFresh c filename
  if value_time ≤ rc.last_value then
    (Except.error RRDError.nonMonotonic, c)
  else if reallocOk = false then
    (Except.error RRDError.allocFailure, cacheRemove c filename)
  else
    let rc1 : RRDCacheEntry :=
      { rc with values := rc.values ++ [(value, value_time)] }
    let rc2 : RRDCacheEntry :=
      if rc1.values.length = 1 then { rc1 with first_value := value_time } else rc1
    let rc3 : RRDCacheEntry := { rc2 with last_value := value_time }
    let rc4 : RRDCacheEntry :=
      if cache_timeout ≤ rc3.last_value - rc3.first_value ∧ rc3.queued = false
      then { rc3 with queued := true } else rc3
    (Except.ok (), cacheSet c filename rc4)

/-- Shallow embedding of the drain performed by `rrd_queue_thread`
(src/rrdtool.c lines 532-543) for one dequeued file name: under the cache
lock, take the entry's value vector and count, then set
`values = NULL`, `values_num = 0`, `flags = FLAG_NONE`; `first_value` and
`last_value` are not touched.  The C code does NOT check the return value of
`avl_get`: when no entry exists for the file name, the local `cache_entry`
stays uninitialized and is dereferenced, a fault; that fault is modelled by
`none`. -/
def rrd_queue_thread_drain (c : RRDCache) (p : String) :
    Option (List (String × Int) × RRDCache) :=
  match cacheGet c p with
  | none => none
  | some rc =>
      some (rc.values, cacheSet c p ⟨[], rc.first_value, rc.last_value, false⟩)

/-- Modelled from the spec: `drain_for_writer(path)` -- "Under the cache lock,
atomically swap the entry's `samples` vector with empty, zero its counts,
clear `flags`. Returns ownership of the prior vector. If the entry no longer
exists, returns empty."  The C code (lines 532-543) diverges in the
entry-missing case, see `rrd_queue_thread_drain`. -/
def drain_for_writer_spec (c : RRDCache) (p : String) :
    List (String × Int) × RRDCache :=
  match cacheGet c p with
  | none => ([], c)
  | some rc =>
      (rc.values, cacheSet c p ⟨[], rc.first_value, rc.last_value, false⟩)

/-- Timestamps of the records buffered in an entry. -/
def entryTs (e : RRDCacheEntry) : List Int := e.values.map Prod.snd

/-- One operation of the cache/writer trace semantics: a producer calling
`rrd_cache_insert`, or the writer worker draining one path. -/
inductive CacheOp where
  | submit (p v : String) (ts : Int)
  | drain (p : String)

/-- State of a trace: the cache mapping plus the history of batches handed to
the archive `update` primitive (`rrd_write_to_file`), each batch recorded as
the file name and the timestamps of its records. -/
structure EngineState where
  cache : RRDCache
  updates : List (String × List Int)

/-- One step of the flushless trace semantics.  `submit` applies
`rrd_cache_insert` (all allocations succeeding) without the opportunistic
flush of lines 773-775, which never runs when `cache_timeout = 0`; the full
semantics including it is `stepOpF`, and `projF_stepOp_zero` shows the two
agree at `cache_timeout = 0`.  `drain` applies the writer drain (lines
532-546): the taken records are handed to `rrd_write_to_file`, which invokes
the archive `update` only when `values_num >= 1` (line 465); a drain of an
absent path is a no-op here (the code would fault, see
`rrd_queue_thread_drain`; no claim routes traces through that fault). -/
def stepOp (ct : Int) (s : EngineState) : CacheOp → EngineState
  | CacheOp.submit p v ts => ⟨(rrd_cache_insert true ct s.cache p v ts).2, s.updates⟩
  | CacheOp.drain p =>
    match cacheGet s.cache p with
    | none => s
    | some rc =>
      ⟨cacheSet s.cache p ⟨[], rc.first_value, rc.last_value, false⟩,
       if rc.values = [] then s.updates else s.updates ++ [(p, entryTs rc)]⟩

/-- Run a list of operations. -/
def runOps (ct : Int) (s : EngineState) : List CacheOp → EngineState
  | [] => s
  | op :: rest => runOps ct (stepOp ct s op) rest

/-- The engine state at start-up: empty cache, no updates issued. -/
def initEngine : EngineState := ⟨[], []⟩

/-- Concatenated timestamps of all update batches issued for path `p`, in
order: the per-path sequence of timestamps handed to the archive `update`
primitive. -/
def updatesFor (p : String) : List (String × List Int) → List Int
  | [] => []
  | (q, l) :: t => if q = p then l ++ updatesFor p t else updatesFor p t

/-- First pass of `rrd_cache_flush` (src/rrdtool.c lines 614-646): traverse
the mapping; skip entries with `flags == FLAG_QUEUED`; skip entries with
`now - first_value < timeout`; enqueue the file name of an entry with
`values_num > 0` and mark it `FLAG_QUEUED` (the queue allocation is modelled
as succeeding); collect the key of an empty entry for the eviction pass.
Returns (updated mapping, enqueued file names, keys marked for removal). -/
def flushPass1 (now timeout : Int) : RRDCache → RRDCache × List String × List String
  | [] => ([], [], [])
  | (k, rc) :: t =>
    let r := flushPass1 now timeout t
    if rc.queued = true then ((k, rc) :: r.1, r.2.1, r.2.2)
    else if now - rc.first_value < timeout then ((k, rc) :: r.1, r.2.1, r.2.2)
    else if 0 < rc.values.length then
      ((k, { rc with queued := true }) :: r.1, k :: r.2.1, r.2.2)
    else ((k, rc) :: r.1, r.2.1, k :: r.2.2)

/-- Second pass of `rrd_cache_flush` (lines 648-662): remove every collected
key from the mapping. -/
def removeKeys (c : RRDCache) (ks : List String) : RRDCache := ks.foldl cacheRemove c

/-- Shallow embedding of `rrd_cache_flush` (src/rrdtool.c lines 597-668):
the traversal pass followed by the eviction pass.  Returns the resulting
mapping and the list of file names put into the update queue. -/
def rrd_cache_flush (now timeout : Int) (c : RRDCache) : RRDCache × List String :=
  let r := flushPass1 now timeout c
  (removeKeys r.1 r.2.2, r.2.1)

/-- Per-entry effect of the traversal pass of `rrd_cache_flush`, mirroring
the branch structure of lines 619-627: a queued entry and a younger-than-
timeout entry are left alone; a non-empty entry is marked queued (its name is
enqueued); an empty entry is left alone (its key is marked for eviction). -/
def flushTransform (now timeout : Int) (e : RRDCacheEntry) : RRDCacheEntry :=
  if e.queued = true then e
  else if now - e.first_value < timeout then e
  else if 0 < e.values.length then { e with queued := true } else e

/-- State of the update queue: the FIFO of file names (`queue_head` ..
`queue_tail`) and the `do_shutdown` flag. -/
structure RRDQueueState where
  items : List String
  do_shutdown : Bool
deriving DecidableEq

/-- Shallow embedding of the dequeue at the head of `rrd_queue_thread`
(src/rrdtool.c lines 509-528): wait while the queue is empty and shutdown has
not been requested; then, if the queue is (still) empty, leave the loop,
otherwise detach the head.  `none` models blocking on the condition variable;
`some none` models leaving the loop; `some (some p)` models dequeuing `p`. -/
def dequeue_blocking (s : RRDQueueState) : Option (Option String) :=
  match s.items with
  | [] => if s.do_shutdown = true then some none else none
  | p :: _ => some (some p)

/-- Transitions of the queue: `rrd_queue_cache_entry` appends at the tail
(lines 583-590), `rrd_shutdown` sets the flag (lines 957-960), and the worker
detaches the head when the queue is non-empty (lines 520-525). -/
inductive QueueStep : RRDQueueState → RRDQueueState → Prop where
  | enqueue (s : RRDQueueState) (p : String) :
      QueueStep s ⟨s.items ++ [p], s.do_shutdown⟩
  | requestShutdown (s : RRDQueueState) :
      QueueStep s ⟨s.items, true⟩
  | dequeue (s : RRDQueueState) (p : String) (rest : List String)
      (h : s.items = p :: rest) : QueueStep s ⟨rest, s.do_shutdown⟩

/-- States of the queue reachable from start-up (empty queue, no shutdown
requested). -/
inductive QueueReachable : RRDQueueState → Prop where
  | init : QueueReachable ⟨[], false⟩
  | step {s s' : RRDQueueState} :
      QueueReachable s → QueueStep s s' → QueueReachable s'

/-- The three consolidation kinds of `rra_types` (src/rrdtool.c lines 71-76). -/
def rra_types : List String := ["AVERAGE", "MIN", "MAX"]

/-- One synthesized round-robin-archive descriptor
`RRA:<type>:<xff>:<cdp_len>:<cdp_num>` (the `xff` field is a fixed
configuration constant and plays no part in any claim, so it is not carried). -/
structure RRADef where
  rra_type : String
  cdp_len : Int
  cdp_num : Int
deriving DecidableEq

/-- Exact ceiling of the rational `a / b` for `b > 0`, mirroring the C
`(int) ceil ((double) a / (double) b)` of `rra_get`, which is exact for the
`int`-sized operands involved. -/
def ceilDiv (a b : Int) : Int := -((-a).fdiv b)

/-- Loop of `rra_get` (src/rrdtool.c lines 165-197).  The first argument
threads the C local `cdp_len`, initialized to `0` and keeping its value
across skipped timespans, so `cdp_len == 0` identifies the first accepted
timespan.  `span / stepsize` is C integer division (truncation toward zero,
`Int.tdiv`); `floor` and `ceil` on `double` quotients are exact for
`int`-sized operands and are modelled by `Int.fdiv` and `ceilDiv`.  The
`rra_max` capacity cut-off (lines 184-185) can never trigger (the loop emits
exactly `rra_types.length` descriptors per accepted timespan and the array is
sized `rts_num * rra_types_num`), and the `snprintf` truncation guard (lines
187-193) cannot fire with a 64-byte buffer, so neither is part of the model. -/
def rra_get_go (stepsize rrarows : Int) : Int → List Int → List RRADef
  | _, [] => []
  | cdp_len_prev, span :: rest =>
    if span.tdiv stepsize < rrarows then
      rra_get_go stepsize rrarows cdp_len_prev rest
    else
      let cdp_len := if cdp_len_prev = 0 then 1 else span.fdiv (rrarows * stepsize)
      let cdp_num := ceilDiv span (cdp_len * stepsize)
      rra_types.map (fun t => ⟨t, cdp_len, cdp_num⟩)
        ++ rra_get_go stepsize rrarows cdp_len rest

/-- Shallow embedding of `rra_get` (src/rrdtool.c lines 117-207), as a pure
function of the sizing configuration and the timespans (the C memoization in
`rra_def`/`rra_num` and the one-off `malloc` failure are not modelled):
`none` is the `-1` failure when `stepsize <= 0 || rrarows <= 0` (lines
159-163), otherwise the synthesized descriptor list. -/
def rra_get (stepsize rrarows : Int) (rts : List Int) : Option (List RRADef) :=
  if stepsize ≤ 0 ∨ rrarows ≤ 0 then none
  else some (rra_get_go stepsize rrarows 0 rts)

/-- Modelled from the spec's words for the schema synthesizer (claim C7): a
timespan is skipped when `span / step_size < rra_rows` as rational numbers,
i.e. `span < rra_rows * step_size`; `cdp_len` is `1` for the first accepted
timespan and `floor (span / (rra_rows * step_size))` afterwards; `cdp_num` is
`ceil (span / (cdp_len * step_size))`; the synthesizer fails when
`step_size <= 0` or `rra_rows <= 0`.  The boolean tracks "no timespan
accepted yet". -/
def rra_spec_go (stepsize rrarows : Int) : Bool → List Int → List RRADef
  | _, [] => []
  | first, span :: rest =>
    if span < rrarows * stepsize then
      rra_spec_go stepsize rrarows first rest
    else
      let cdp_len := if first = true then 1 else span.fdiv (rrarows * stepsize)
      let cdp_num := ceilDiv span (cdp_len * stepsize)
      rra_types.map (fun t => ⟨t, cdp_len, cdp_num⟩)
        ++ rra_spec_go stepsize rrarows false rest

/-- Modelled from the spec's words (claim C7): top level of the schema
synthesizer. -/
def rra_get_spec (stepsize rrarows : Int) (rts : List Int) : Option (List RRADef) :=
  if stepsize ≤ 0 ∨ rrarows ≤ 0 then none
  else some (rra_spec_go stepsize rrarows true rts)

/-- Concrete file names and serialized records used by witnesses and
counterexamples. -/
def keyA : String := "a"

/-- Second concrete file name. -/
def keyB : String := "b"

/-- Concrete serialized record. -/
def valX : String := "1:0.5"

/-- Second concrete serialized record. -/
def valY : String := "2:0.7"

/-- Concrete pre-existing entry: one buffered record with timestamp 5. -/
def entA : RRDCacheEntry := ⟨[(valX, 5)], 5, 5, false⟩

/-- Concrete non-empty, unqueued entry whose `first_value` lies more than one
second in the future of the flush's `now` (= 0): a producer may submit a
sample with a future timestamp, and `first_value` is taken from it. -/
def entFuture : RRDCacheEntry := ⟨[(valX, 9)], 2, 9, false⟩

/-- Concrete empty, unqueued entry (as left behind by a writer drain). -/
def entEmptyB : RRDCacheEntry := ⟨[], 3, 4, false⟩

/-- Per-path invariant of the trace semantics, for a path with an entry:
`done` is the per-path sequence of timestamps already handed to the archive
`update` primitive.  The drained timestamps followed by the buffered ones are
strictly increasing, every one of them is at most `last_value`, and a queued
entry has a non-empty buffer. -/
def EntryInv (done : List Int) (e : RRDCacheEntry) : Prop :=
  List.Pairwise (· < ·) (done ++ entryTs e)
  ∧ (∀ t ∈ done ++ entryTs e, t ≤ e.last_value)
  ∧ (e.queued = true → e.values ≠ [])

/-- Whole-state invariant of the trace semantics: paths without an entry have
had no update issued (entries are never removed by submit or drain), and
every entry satisfies `EntryInv` against its update history. -/
def EngineInv (s : EngineState) : Prop :=
  ∀ p : String,
    match cacheGet s.cache p with
    | none => updatesFor p s.updates = []
    | some e => EntryInv (updatesFor p s.updates) e

/-- Third concrete serialized record. -/
def valZ : String := "3:0.9"

/-- Full `rrd_cache_insert` including the opportunistic flush of lines
773-775: on the success path, when `cache_timeout > 0` and
`now - cache_flush_last > cache_flush_timeout`, run
`rrd_cache_flush (cache_flush_timeout)`, which sets `cache_flush_last = now`
(line 667).  `now` models the two `time (NULL)` reads of lines 774 and 611,
between which no time passes in the model.  Returns the result, the new
mapping, and the new `cache_flush_last`. -/
def rrd_cache_insert_flush (cache_timeout cache_flush_timeout : Int)
    (c : RRDCache) (cache_flush_last : Int) (filename value : String)
    (value_time now : Int) : Except RRDError Unit × RRDCache × Int :=
  let r := rrd_cache_insert true cache_timeout c filename value value_time
  match r.1 with
  | Except.error err => (Except.error err, r.2, cache_flush_last)
  | Except.ok _ =>
    if 0 < cache_timeout ∧ cache_flush_timeout < now - cache_flush_last
    then (Except.ok (), (rrd_cache_flush now cache_flush_timeout r.2).1, now)
    else (Except.ok (), r.2, cache_flush_last)

/-- One operation of the full trace semantics: a submit carries the wall
clock `now` at which it runs (feeding the flush trigger of line 774). -/
inductive CacheOpF where
  | submit (p v : String) (ts now : Int)
  | drain (p : String)

/-- State of a full trace: the cache mapping, the `cache_flush_last` wall
time, and the history of update batches as in `EngineState`. -/
structure EngineStateF where
  cache : RRDCache
  cache_flush_last : Int
  updates : List (String × List Int)

/-- One step of the full trace semantics: `submit` is
`rrd_cache_insert_flush` (the flush pass included), `drain` is the writer
drain exactly as in `stepOp`. -/
def stepOpF (ct cft : Int) (s : EngineStateF) : CacheOpF → EngineStateF
  | CacheOpF.submit p v ts now =>
    let r := rrd_cache_insert_flush ct cft s.cache s.cache_flush_last p v ts now
    ⟨r.2.1, r.2.2, s.updates⟩
  | CacheOpF.drain p =>
    match cacheGet s.cache p with
    | none => s
    | some rc =>
      ⟨cacheSet s.cache p ⟨[], rc.first_value, rc.last_value, false⟩,
       s.cache_flush_last,
       if rc.values = [] then s.updates else s.updates ++ [(p, entryTs rc)]⟩

/-- Run a list of full-trace operations. -/
def runOpsF (ct cft : Int) (s : EngineStateF) : List CacheOpF → EngineStateF
  | [] => s
  | op :: rest => runOpsF ct cft (stepOpF ct cft s op) rest

/-- The full-trace state at start-up: empty cache, `cache_flush_last = 0`
(`rrd_init` sets it to the start-up wall time, line 993; the model counts
wall time from it), no updates issued. -/
def initEngineF : EngineStateF := ⟨[], 0, []⟩

/-- Forget a submit's wall clock, mapping full-trace operations onto the
flushless ones. -/
def opOfF : CacheOpF → CacheOp
  | CacheOpF.submit p v ts _ => CacheOp.submit p v ts
  | CacheOpF.drain p => CacheOp.drain p

/-- Forget `cache_flush_last`, projecting a full-trace state onto a
flushless one. -/
def projF (s : EngineStateF) : EngineState := ⟨s.cache, s.updates⟩

/-- Well-formedness of a single entry, stable under flush passes: buffered
timestamps strictly increasing and bounded by `last_value`. -/
def EntryWf (e : RRDCacheEntry) : Prop :=
  List.Pairwise (· < ·) (entryTs e) ∧ ∀ t ∈ entryTs e, t ≤ e.last_value

/-- Well-formedness of every entry in the mapping (every occurrence, not
just the first of each key). -/
def CacheWf (c : RRDCache) : Prop := ∀ kv ∈ c, EntryWf kv.2

/-- Frame lemma: `cacheGet` after `cacheSet` at the same key. -/
theorem cacheGet_cacheSet_self (c : RRDCache) (p : String) (e : RRDCacheEntry) :
    cacheGet (cacheSet c p e) p = some e := by
  induction c with
  | nil => simp [cacheSet, cacheGet]
  | cons kv t ih =>
    obtain ⟨k, e0⟩ := kv
    by_cases h : k = p
    · simp [cacheSet, cacheGet, h]
    · simp [cacheSet, cacheGet, h, ih]

/-- Frame lemma: `cacheGet` after `cacheSet` at a different key. -/
theorem cacheGet_cacheSet_ne (c : RRDCache) (p q : String) (e : RRDCacheEntry)
    (h : p ≠ q) : cacheGet (cacheSet c p e) q = cacheGet c q := by
  induction c with
  | nil => simp [cacheSet, cacheGet, h]
  | cons kv t ih =>
    obtain ⟨k, e0⟩ := kv
    by_cases hk : k = p
    · subst hk
      simp [cacheSet, cacheGet, h]
    · simp [cacheSet, cacheGet, hk, ih]

/-- Frame lemma: `cacheGet` after `cacheRemove` at a different key. -/
theorem cacheGet_cacheRemove_ne (c : RRDCache) (p q : String)
    (h : p ≠ q) : cacheGet (cacheRemove c p) q = cacheGet c q := by
  induction c with
  | nil => simp [cacheRemove, cacheGet]
  | cons kv t ih =>
    obtain ⟨k, e0⟩ := kv
    by_cases hk : k = p
    · subst hk
      simp [cacheRemove, cacheGet, h]
    · simp [cacheRemove, cacheGet, hk, ih]

/-- Characterization of `rrd_cache_insert` on rejection: when the sample
timestamp does not exceed `last_value`, the call returns the non-monotonic
error and leaves the mapping untouched (for any allocation behavior). -/
theorem rrd_cache_insert_reject_eq (reallocOk : Bool) (ct : Int) (c : RRDCache)
    (p v : String) (ts : Int) (h : ts ≤ (entryOrFresh c p).last_value) :
    rrd_cache_insert reallocOk ct c p v ts = (Except.error RRDError.nonMonotonic, c) := by
  simp [rrd_cache_insert, h]

/-- Characterization of `rrd_cache_insert` on `realloc` failure: the call is
reached only past the monotonicity check, returns the allocation error, and
removes the entry for `filename` from the mapping (whether it pre-existed or
was freshly created in this call). -/
theorem rrd_cache_insert_allocfail_eq (ct : Int) (c : RRDCache) (p v : String)
    (ts : Int) (h : (entryOrFresh c p).last_value < ts) :
    rrd_cache_insert false ct c p v ts =
      (Except.error RRDError.allocFailure, cacheRemove c p) := by
  simp [rrd_cache_insert, not_le.mpr h]

/-- Characterization of `rrd_cache_insert` on acceptance: the record is
appended, `first_value` is set exactly when the buffer was empty,
`last_value` becomes the sample timestamp, and the entry is marked queued
when the age threshold is met. -/
theorem rrd_cache_insert_accept_eq (ct : Int) (c : RRDCache) (p v : String) (ts : Int)
    (h : (entryOrFresh c p).last_value < ts) :
    rrd_cache_insert true ct c p v ts =
      (Except.ok (),
       cacheSet c p
         (if ct ≤ ts - (if (entryOrFresh c p).values = [] then ts
                        else (entryOrFresh c p).first_value)
             ∧ (entryOrFresh c p).queued = false
          then ⟨(entryOrFresh c p).values ++ [(v, ts)],
                if (entryOrFresh c p).values = [] then ts
                else (entryOrFresh c p).first_value, ts, true⟩
          else ⟨(entryOrFresh c p).values ++ [(v, ts)],
                if (entryOrFresh c p).values = [] then ts
                else (entryOrFresh c p).first_value, ts,
                (entryOrFresh c p).queued⟩)) := by
  have hnle := not_le.mpr h
  by_cases hemp : (entryOrFresh c p).values = []
  · simp only [rrd_cache_insert, hnle, if_false, Bool.true_eq_false, hemp,
      List.nil_append, List.length_singleton, if_true, ite_true, ite_false]
  · have hlen : ¬ ((entryOrFresh c p).values ++ [(v, ts)]).length = 1 := by
      simp only [List.length_append, List.length_singleton]
      intro h0
      exact hemp (List.length_eq_zero.mp (Nat.succ_injective h0))
    simp [rrd_cache_insert, hnle, hemp, hlen]

/-- C2: with the entry for the path present, `rrd_cache_insert` (all
allocations succeeding) returns an error exactly when `last_value >=
value_time`; on that rejection the mapping -- hence the entry's buffer,
`first_value`, `last_value` and flags -- is unchanged and the whole engine
step is a no-op, so the rejected sample appears in no later archive update. -/
theorem rrd_submit_reject_iff (ct : Int) (c : RRDCache) (p v : String) (ts : Int)
    (e : RRDCacheEntry) (h : cacheGet c p = some e) :
    ((rrd_cache_insert true ct c p v ts).1 = Except.error RRDError.nonMonotonic
        ↔ ts ≤ e.last_value)
    ∧ (ts ≤ e.last_value →
        (rrd_cache_insert true ct c p v ts).2 = c
        ∧ ∀ (u : List (String × List Int)) (ops : List CacheOp),
            runOps ct ⟨c, u⟩ (CacheOp.submit p v ts :: ops) = runOps ct ⟨c, u⟩ ops) := by
  have he : entryOrFresh c p = e := by simp [entryOrFresh, h]
  constructor
  · constructor
    · intro herr
      by_contra hnle
      rw [rrd_cache_insert_accept_eq ct c p v ts
        (by rw [he]; exact lt_of_not_le hnle)] at herr
      exact absurd herr (by simp)
    · intro hle
      rw [rrd_cache_insert_reject_eq true ct c p v ts (by rw [he]; exact hle)]
  · intro hle
    have hr := rrd_cache_insert_reject_eq true ct c p v ts (by rw [he]; exact hle)
    refine ⟨by rw [hr], ?_⟩
    intro u ops
    simp only [runOps, stepOp, hr]

/-- Witness for `rrd_submit_reject_iff` at a concrete input: a cache with one
entry whose `last_value` is 5, submitted a sample with timestamp 3. -/
theorem rrd_submit_reject_iff_witness :
    cacheGet [(keyA, entA)] keyA = some entA
    ∧ (((rrd_cache_insert true 0 [(keyA, entA)] keyA valY 3).1
          = Except.error RRDError.nonMonotonic ↔ (3 : Int) ≤ entA.last_value)
       ∧ ((3 : Int) ≤ entA.last_value →
           (rrd_cache_insert true 0 [(keyA, entA)] keyA valY 3).2 = [(keyA, entA)]
           ∧ ∀ (u : List (String × List Int)) (ops : List CacheOp),
               runOps 0 ⟨[(keyA, entA)], u⟩ (CacheOp.submit keyA valY 3 :: ops)
                 = runOps 0 ⟨[(keyA, entA)], u⟩ ops)) :=
  ⟨rfl, rrd_submit_reject_iff 0 [(keyA, entA)] keyA valY 3 entA rfl⟩

/-- C3: on an accepted submit (sample timestamp strictly above the prior
`last_value`, all allocations succeeding) the call returns success, the
serialized record is appended as exactly one new buffer element,
`last_value` becomes the sample timestamp, and `first_value` is set to the
sample timestamp iff the buffer was empty before the call. -/
theorem rrd_submit_accept_appends (ct : Int) (c : RRDCache) (p v : String) (ts : Int)
    (h : (entryOrFresh c p).last_value < ts) :
    (rrd_cache_insert true ct c p v ts).1 = Except.ok ()
    ∧ ∃ q : Bool,
        cacheGet (rrd_cache_insert true ct c p v ts).2 p =
          some ⟨(entryOrFresh c p).values ++ [(v, ts)],
                if (entryOrFresh c p).values = [] then ts
                else (entryOrFresh c p).first_value, ts, q⟩ := by
  rw [rrd_cache_insert_accept_eq ct c p v ts h]
  refine ⟨rfl, ?_⟩
  by_cases hq : ct ≤ ts - (if (entryOrFresh c p).values = [] then ts
      else (entryOrFresh c p).first_value) ∧ (entryOrFresh c p).queued = false
  · exact ⟨true, by rw [if_pos hq]; exact cacheGet_cacheSet_self ..⟩
  · exact ⟨(entryOrFresh c p).queued, by rw [if_neg hq]; exact cacheGet_cacheSet_self ..⟩

/-- Witness for `rrd_submit_accept_appends`: first sample for a path,
timestamp 7. -/
theorem rrd_submit_accept_appends_witness :
    (entryOrFresh [] keyA).last_value < 7
    ∧ ((rrd_cache_insert true 0 [] keyA valX 7).1 = Except.ok ()
       ∧ ∃ q : Bool,
           cacheGet (rrd_cache_insert true 0 [] keyA valX 7).2 keyA =
             some ⟨(entryOrFresh [] keyA).values ++ [(valX, 7)],
                   if (entryOrFresh [] keyA).values = [] then 7
                   else (entryOrFresh [] keyA).first_value, 7, q⟩) :=
  ⟨by decide, rrd_submit_accept_appends 0 [] keyA valX 7 (by decide)⟩

/-- C4: for a path that has no entry in the mapping, the C writer drain
faults -- `rrd_queue_thread` does not check the result of `avl_get`, so the
local `cache_entry` stays uninitialized and is dereferenced (modelled as
`none`) -- whereas the spec's `drain_for_writer` returns an empty vector and
leaves the cache unchanged. -/
theorem rrd_drain_missing_faults (c : RRDCache) (p : String)
    (h : cacheGet c p = none) :
    rrd_queue_thread_drain c p = none
    ∧ drain_for_writer_spec c p = ([], c) := by
  constructor
  · simp [rrd_queue_thread_drain, h]
  · simp [drain_for_writer_spec, h]

/-- Witness for `rrd_drain_missing_faults`: empty cache (reachable: an entry
queued by the flusher can be removed from the mapping by the `realloc`
failure path of `rrd_cache_insert` before the worker dequeues its name). -/
theorem rrd_drain_missing_faults_witness :
    cacheGet [] keyA = none
    ∧ (rrd_queue_thread_drain [] keyA = none
       ∧ drain_for_writer_spec [] keyA = ([], [])) :=
  ⟨rfl, rrd_drain_missing_faults [] keyA rfl⟩

/-- C6 counterexample: with an entry already in the mapping holding one
buffered record, a submit hitting `realloc` failure removes that pre-existing
entry from the cache -- contradicting the claim that only a
partially-constructed entry is rolled back while a pre-existing entry stays
with its buffered samples. -/
theorem rrd_insert_allocfail_counterexample :
    cacheGet [(keyA, entA)] keyA = some entA
    ∧ entA.values ≠ []
    ∧ rrd_cache_insert false 0 [(keyA, entA)] keyA valY 7
        = (Except.error RRDError.allocFailure, [])
    ∧ cacheGet (rrd_cache_insert false 0 [(keyA, entA)] keyA valY 7).2 keyA = none :=
  ⟨rfl, by decide, rfl, rfl⟩

/-- C6 amended: when submit fails on the `realloc` of the values array, the
operation is abandoned, the sample is dropped, and the entry for the path is
removed from the mapping whether it was created in this call or pre-existed
(a pre-existing entry's previously buffered samples are dropped with it). -/
theorem rrd_insert_allocfail_spec (ct : Int) (c : RRDCache) (p v : String)
    (ts : Int) (h : (entryOrFresh c p).last_value < ts) :
    rrd_cache_insert false ct c p v ts
      = (Except.error RRDError.allocFailure, cacheRemove c p) :=
  rrd_cache_insert_allocfail_eq ct c p v ts h

/-- Witness for `rrd_insert_allocfail_spec` at a concrete input. -/
theorem rrd_insert_allocfail_spec_witness :
    (entryOrFresh [(keyA, entA)] keyA).last_value < 7
    ∧ rrd_cache_insert false 0 [(keyA, entA)] keyA valY 7
        = (Except.error RRDError.allocFailure, cacheRemove [(keyA, entA)] keyA) :=
  ⟨by decide, rrd_insert_allocfail_spec 0 [(keyA, entA)] keyA valY 7 (by decide)⟩

/-- C9: the writer drain on a present entry changes only the value vector
(emptied, with its count) and the flags (cleared); `first_value` and
`last_value` are untouched, so a sample submitted after the drain is still
rejected whenever its timestamp is not strictly greater than the last
timestamp accepted before the drain. -/
theorem rrd_drain_frame (c : RRDCache) (p : String) (e : RRDCacheEntry)
    (h : cacheGet c p = some e) :
    rrd_queue_thread_drain c p
      = some (e.values, cacheSet c p ⟨[], e.first_value, e.last_value, false⟩)
    ∧ ∀ (ct : Int) (v : String) (ts : Int), ts ≤ e.last_value →
        rrd_cache_insert true ct
            (cacheSet c p ⟨[], e.first_value, e.last_value, false⟩) p v ts
          = (Except.error RRDError.nonMonotonic,
             cacheSet c p ⟨[], e.first_value, e.last_value, false⟩) := by
  constructor
  · simp [rrd_queue_thread_drain, h]
  · intro ct v ts hle
    apply rrd_cache_insert_reject_eq
    have hg : cacheGet (cacheSet c p ⟨[], e.first_value, e.last_value, false⟩) p
        = some ⟨[], e.first_value, e.last_value, false⟩ := cacheGet_cacheSet_self ..
    simp only [entryOrFresh, hg]
    exact hle

/-- Witness for `rrd_drain_frame` at a concrete input. -/
theorem rrd_drain_frame_witness :
    cacheGet [(keyA, entA)] keyA = some entA
    ∧ (rrd_queue_thread_drain [(keyA, entA)] keyA
        = some (entA.values,
            cacheSet [(keyA, entA)] keyA ⟨[], entA.first_value, entA.last_value, false⟩)
       ∧ ∀ (ct : Int) (v : String) (ts : Int), ts ≤ entA.last_value →
          rrd_cache_insert true ct
              (cacheSet [(keyA, entA)] keyA ⟨[], entA.first_value, entA.last_value, false⟩)
              keyA v ts
            = (Except.error RRDError.nonMonotonic,
               cacheSet [(keyA, entA)] keyA ⟨[], entA.first_value, entA.last_value, false⟩)) :=
  ⟨rfl, rrd_drain_frame [(keyA, entA)] keyA entA rfl⟩

/-- C10: for a path with no existing entry, `rrd_cache_insert` works on a
fresh entry whose `last_value` is 0, so the very first submit for a path is
rejected as non-monotonic exactly when its timestamp is `<= 0`, and accepted
otherwise. -/
theorem rrd_submit_fresh_reject_iff (ct : Int) (c : RRDCache) (p v : String)
    (ts : Int) (h : cacheGet c p = none) :
    entryOrFresh c p = freshEntry
    ∧ ((rrd_cache_insert true ct c p v ts).1 = Except.error RRDError.nonMonotonic
        ↔ ts ≤ 0)
    ∧ (0 < ts → (rrd_cache_insert true ct c p v ts).1 = Except.ok ()) := by
  have hf : entryOrFresh c p = freshEntry := by simp [entryOrFresh, h]
  refine ⟨hf, ⟨?_, ?_⟩, ?_⟩
  · intro herr
    by_contra hts
    rw [rrd_cache_insert_accept_eq ct c p v ts
      (by rw [hf]; show (0 : Int) < ts; exact lt_of_not_le hts)] at herr
    exact absurd herr (by simp)
  · intro hle
    rw [rrd_cache_insert_reject_eq true ct c p v ts
      (by rw [hf]; show ts ≤ (0 : Int); exact hle)]
  · intro h0
    rw [rrd_cache_insert_accept_eq ct c p v ts
      (by rw [hf]; show (0 : Int) < ts; exact h0)]

/-- Witness for `rrd_submit_fresh_reject_iff`: empty cache, timestamp 0. -/
theorem rrd_submit_fresh_reject_iff_witness :
    cacheGet [] keyA = none
    ∧ (entryOrFresh [] keyA = freshEntry
       ∧ ((rrd_cache_insert true 0 [] keyA valX 0).1
            = Except.error RRDError.nonMonotonic ↔ (0 : Int) ≤ 0)
       ∧ ((0 : Int) < 0 → (rrd_cache_insert true 0 [] keyA valX 0).1 = Except.ok ())) :=
  ⟨rfl, rrd_submit_fresh_reject_iff 0 [] keyA valX 0 rfl⟩

/-- C8: in every reachable state of the queue/worker step relation,
`dequeue_blocking` signals loop exit (`some none`) exactly when the queue is
empty and shutdown has been requested; hence the worker never leaves its loop
while an item remains in the queue. -/
theorem rrd_dequeue_none_iff (s : RRDQueueState) (h : QueueReachable s) :
    (dequeue_blocking s = some none ↔ s.items = [] ∧ s.do_shutdown = true)
    ∧ (s.items ≠ [] → dequeue_blocking s ≠ some none) := by
  obtain ⟨items, sd⟩ := s
  constructor
  · cases items with
    | nil => cases sd <;> simp [dequeue_blocking]
    | cons p rest => simp [dequeue_blocking]
  · intro hne
    cases items with
    | nil => exact absurd rfl hne
    | cons p rest => simp [dequeue_blocking]

/-- Witness for `rrd_dequeue_none_iff`: the state after a shutdown request on
the start state. -/
theorem rrd_dequeue_none_iff_witness :
    QueueReachable ⟨[], true⟩
    ∧ ((dequeue_blocking ⟨[], true⟩ = some none
          ↔ ([] : List String) = [] ∧ true = true)
       ∧ (([] : List String) ≠ [] → dequeue_blocking ⟨[], true⟩ ≠ some none)) :=
  ⟨QueueReachable.step QueueReachable.init (QueueStep.requestShutdown ⟨[], false⟩),
   rrd_dequeue_none_iff ⟨[], true⟩
     (QueueReachable.step QueueReachable.init (QueueStep.requestShutdown ⟨[], false⟩))⟩

/-- Distribution of `updatesFor` over an appended history. -/
theorem updatesFor_append (p : String) (t1 t2 : List (String × List Int)) :
    updatesFor p (t1 ++ t2) = updatesFor p t1 ++ updatesFor p t2 := by
  induction t1 with
  | nil => simp [updatesFor]
  | cons x t ih =>
    obtain ⟨q, l⟩ := x
    by_cases hq : q = p
    · simp [updatesFor, hq, ih, List.append_assoc]
    · simp [updatesFor, hq, ih]

/-- Value of `updatesFor` on a one-batch history. -/
theorem updatesFor_single (p q : String) (l : List Int) :
    updatesFor p [(q, l)] = if q = p then l else [] := by
  by_cases hq : q = p <;> simp [updatesFor, hq]

/-- Appending a strictly later record preserves the per-path invariant. -/
theorem entryInv_append (done : List Int) (e : RRDCacheEntry) (v : String)
    (ts : Int) (qb : Bool) (hEI : EntryInv done e) (hlt : e.last_value < ts) :
    EntryInv done
      ⟨e.values ++ [(v, ts)],
       if e.values = [] then ts else e.first_value, ts, qb⟩ := by
  obtain ⟨hs, hb, _⟩ := hEI
  have hts : entryTs ⟨e.values ++ [(v, ts)],
      if e.values = [] then ts else e.first_value, ts, qb⟩ = entryTs e ++ [ts] := by
    simp [entryTs]
  refine ⟨?_, ?_, ?_⟩
  · show List.Pairwise (· < ·) _
    rw [hts, ← List.append_assoc, List.pairwise_append]
    refine ⟨hs, List.pairwise_singleton .., ?_⟩
    intro x hx y hy
    rw [List.mem_singleton] at hy
    subst hy
    exact lt_of_le_of_lt (hb x hx) hlt
  · intro t ht
    rw [hts, ← List.append_assoc] at ht
    rcases List.mem_append.mp ht with h1 | h2
    · exact le_of_lt (lt_of_le_of_lt (hb t h1) hlt)
    · rw [List.mem_singleton] at h2
      exact le_of_eq h2
  · intro _
    simp

/-- The empty-history invariant of a fresh entry. -/
theorem entryInv_fresh : EntryInv [] freshEntry := by
  refine ⟨?_, ?_, ?_⟩ <;> simp [freshEntry, entryTs]

/-- An accepted submit preserves the whole-state invariant (both for a fresh
and for an existing entry, and for either final value of the queued flag). -/
theorem engineInv_submit_aux (s : EngineState) (p0 v : String) (ts : Int) (qb : Bool)
    (h : EngineInv s) (hacc : (entryOrFresh s.cache p0).last_value < ts) :
    EngineInv
      ⟨cacheSet s.cache p0
        ⟨(entryOrFresh s.cache p0).values ++ [(v, ts)],
         if (entryOrFresh s.cache p0).values = [] then ts
         else (entryOrFresh s.cache p0).first_value, ts, qb⟩,
       s.updates⟩ := by
  simp only [EngineInv]
  intro p
  by_cases hp : p = p0
  · subst hp
    rw [cacheGet_cacheSet_self]
    have hEI : EntryInv (updatesFor p s.updates) (entryOrFresh s.cache p) := by
      have hx := h p
      cases hg : cacheGet s.cache p with
      | none =>
        rw [hg] at hx
        simp only [entryOrFresh, hg]
        simpa [hx] using entryInv_fresh
      | some e0 =>
        rw [hg] at hx
        simpa only [entryOrFresh, hg] using hx
    exact entryInv_append (updatesFor p s.updates) (entryOrFresh s.cache p) v ts qb hEI hacc
  · rw [cacheGet_cacheSet_ne _ p0 p _ (fun hh => hp hh.symm)]
    exact h p

/-- A single trace step preserves the whole-state invariant. -/
theorem engineInv_step (ct : Int) (s : EngineState) (op : CacheOp)
    (h : EngineInv s) : EngineInv (stepOp ct s op) := by
  cases op with
  | submit p0 v ts =>
    simp only [stepOp]
    by_cases hacc : (entryOrFresh s.cache p0).last_value < ts
    · rw [rrd_cache_insert_accept_eq ct s.cache p0 v ts hacc]
      by_cases hq : ct ≤ ts - (if (entryOrFresh s.cache p0).values = [] then ts
          else (entryOrFresh s.cache p0).first_value)
          ∧ (entryOrFresh s.cache p0).queued = false
      · rw [if_pos hq]
        exact engineInv_submit_aux s p0 v ts true h hacc
      · rw [if_neg hq]
        exact engineInv_submit_aux s p0 v ts (entryOrFresh s.cache p0).queued h hacc
    · rw [rrd_cache_insert_reject_eq true ct s.cache p0 v ts (not_lt.mp hacc)]
      exact h
  | drain p0 =>
    simp only [stepOp]
    cases hg : cacheGet s.cache p0 with
    | none => exact h
    | some e =>
      simp only [EngineInv]
      intro p
      have hx := h p0
      rw [hg] at hx
      by_cases hp : p = p0
      · subst hp
        rw [cacheGet_cacheSet_self]
        obtain ⟨hs, hb, _⟩ := hx
        have hnil : entryTs ⟨[], e.first_value, e.last_value, false⟩ = [] := rfl
        by_cases hemp : e.values = []
        · rw [if_pos hemp]
          have hts0 : entryTs e = [] := by simp [entryTs, hemp]
          refine ⟨?_, ?_, by simp⟩
          · rw [hnil, List.append_nil]
            rw [hts0, List.append_nil] at hs
            exact hs
          · intro t ht
            rw [hnil, List.append_nil] at ht
            exact hb t (List.mem_append.mpr (Or.inl ht))
        · rw [if_neg hemp]
          rw [updatesFor_append, updatesFor_single, if_pos rfl]
          refine ⟨?_, ?_, by simp⟩
          · rw [hnil, List.append_nil]
            exact hs
          · intro t ht
            rw [hnil, List.append_nil] at ht
            exact hb t ht
      · rw [cacheGet_cacheSet_ne _ p0 p _ (fun hh => hp hh.symm)]
        have hy := h p
        by_cases hemp : e.values = []
        · rw [if_pos hemp]
          exact hy
        · rw [if_neg hemp]
          rw [updatesFor_append, updatesFor_single,
            if_neg (fun hh => hp hh.symm), List.append_nil]
          exact hy

/-- The whole-state invariant holds at start-up. -/
theorem engineInv_init : EngineInv initEngine := by
  simp only [EngineInv]
  intro p
  simp [initEngine, cacheGet, updatesFor]

/-- Running any operation list preserves the whole-state invariant. -/
theorem engineInv_run (ct : Int) (ops : List CacheOp) (s : EngineState)
    (h : EngineInv s) : EngineInv (runOps ct s ops) := by
  induction ops generalizing s with
  | nil => exact h
  | cons op rest ih => exact ih (stepOp ct s op) (engineInv_step ct s op h)

/-- In the flushless trace semantics (exact for `cache_timeout = 0`), the
per-path update timestamp sequence is strictly increasing. -/
theorem runOps_updates_monotone (ct : Int) (ops : List CacheOp) (p : String) :
    List.Pairwise (· < ·) (updatesFor p (runOps ct initEngine ops).updates) := by
  have hInv := engineInv_run ct ops initEngine engineInv_init
  have hp := hInv p
  cases hg : cacheGet (runOps ct initEngine ops).cache p with
  | none =>
    rw [hg] at hp
    have hp' : updatesFor p (runOps ct initEngine ops).updates = [] := hp
    rw [hp']
    exact List.Pairwise.nil
  | some e0 =>
    rw [hg] at hp
    obtain ⟨hs, _, _⟩ := hp
    exact (List.pairwise_append.mp hs).1

/-- Characterization of `rrd_cache_insert_flush` on rejection: the early
return of lines 696-700 is taken before the flush call, leaving mapping and
`cache_flush_last` untouched. -/
theorem rrd_cache_insert_flush_reject_eq (ct cft : Int) (c : RRDCache)
    (cfl : Int) (p v : String) (ts now : Int)
    (h : ts ≤ (entryOrFresh c p).last_value) :
    rrd_cache_insert_flush ct cft c cfl p v ts now
      = (Except.error RRDError.nonMonotonic, c, cfl) := by
  simp [rrd_cache_insert_flush, rrd_cache_insert_reject_eq true ct c p v ts h]

/-- Characterization of `rrd_cache_insert_flush` on acceptance: the insert
runs, then the flush pass exactly when `cache_timeout > 0` and the wall
clock has moved past `cache_flush_last` by more than `cache_flush_timeout`. -/
theorem rrd_cache_insert_flush_ok (ct cft : Int) (c : RRDCache) (cfl : Int)
    (p v : String) (ts now : Int) (h : (entryOrFresh c p).last_value < ts) :
    rrd_cache_insert_flush ct cft c cfl p v ts now
      = (Except.ok (),
         if 0 < ct ∧ cft < now - cfl
         then ((rrd_cache_flush now cft (rrd_cache_insert true ct c p v ts).2).1, now)
         else ((rrd_cache_insert true ct c p v ts).2, cfl)) := by
  have hr : (rrd_cache_insert true ct c p v ts).1 = Except.ok () := by
    rw [rrd_cache_insert_accept_eq ct c p v ts h]
  simp only [rrd_cache_insert_flush, hr]
  split <;> rfl

/-- A successful lookup means the pair is in the mapping. -/
theorem cacheGet_mem (c : RRDCache) (p : String) (e : RRDCacheEntry)
    (h : cacheGet c p = some e) : (p, e) ∈ c := by
  induction c with
  | nil => simp [cacheGet] at h
  | cons kv t ih =>
    obtain ⟨k, e0⟩ := kv
    by_cases hk : k = p
    · subst hk
      simp [cacheGet] at h
      subst h
      exact List.mem_cons_self ..
    · simp [cacheGet, hk] at h
      exact List.mem_cons_of_mem _ (ih h)

/-- With no duplicate keys, a pair in the mapping carries the entry that
lookup returns. -/
theorem mem_entry_eq_of_nodup (c : RRDCache) (p : String) (e e' : RRDCacheEntry)
    (hnd : (c.map Prod.fst).Nodup) (hg : cacheGet c p = some e)
    (hm : (p, e') ∈ c) : e' = e := by
  induction c with
  | nil => simp at hm
  | cons kv t ih =>
    obtain ⟨k, e0⟩ := kv
    have hk_nm : k ∉ t.map Prod.fst := (List.nodup_cons.mp (by simpa using hnd)).1
    have hnd_t : (t.map Prod.fst).Nodup := (List.nodup_cons.mp (by simpa using hnd)).2
    rcases List.mem_cons.mp hm with heq | hmt
    · injection heq with hp he'
      subst hp
      subst he'
      simp [cacheGet] at hg
      exact hg
    · by_cases hk : k = p
      · subst hk
        exact absurd (List.mem_map_of_mem Prod.fst hmt) hk_nm
      · simp [cacheGet, hk] at hg
        exact ih hnd_t hg hmt

/-- A key outside the key list is absent. -/
theorem cacheGet_none_of_not_mem (c : RRDCache) (p : String)
    (h : p ∉ c.map Prod.fst) : cacheGet c p = none := by
  induction c with
  | nil => rfl
  | cons kv t ih =>
    obtain ⟨k, e0⟩ := kv
    simp only [List.map_cons, List.mem_cons] at h
    push_neg at h
    simp [cacheGet, Ne.symm h.1, ih h.2]

/-- With no duplicate keys, removal makes the key absent. -/
theorem cacheGet_cacheRemove_self_nodup (c : RRDCache) (p : String)
    (hnd : (c.map Prod.fst).Nodup) : cacheGet (cacheRemove c p) p = none := by
  induction c with
  | nil => rfl
  | cons kv t ih =>
    obtain ⟨k, e0⟩ := kv
    have hk_nm : k ∉ t.map Prod.fst := (List.nodup_cons.mp (by simpa using hnd)).1
    have hnd_t : (t.map Prod.fst).Nodup := (List.nodup_cons.mp (by simpa using hnd)).2
    by_cases hk : k = p
    · subst hk
      rw [show cacheRemove ((k, e0) :: t) k = t from by simp [cacheRemove]]
      exact cacheGet_none_of_not_mem t k hk_nm
    · rw [show cacheRemove ((k, e0) :: t) p = (k, e0) :: cacheRemove t p from by
        simp [cacheRemove, hk]]
      rw [show cacheGet ((k, e0) :: cacheRemove t p) p
          = if k = p then some e0 else cacheGet (cacheRemove t p) p from rfl,
        if_neg hk]
      exact ih hnd_t

/-- Removal never resurrects an absent key. -/
theorem cacheGet_cacheRemove_none (c : RRDCache) (p q : String)
    (h : cacheGet c p = none) : cacheGet (cacheRemove c q) p = none := by
  by_cases hq : q = p
  · subst hq
    induction c with
    | nil => rfl
    | cons kv t ih =>
      obtain ⟨k, e0⟩ := kv
      by_cases hk : k = q
      · subst hk
        simp [cacheGet] at h
      · rw [show cacheRemove ((k, e0) :: t) q = (k, e0) :: cacheRemove t q from by
          simp [cacheRemove, hk]]
        rw [show cacheGet ((k, e0) :: cacheRemove t q) q
            = if k = q then some e0 else cacheGet (cacheRemove t q) q from rfl,
          if_neg hk]
        rw [show cacheGet ((k, e0) :: t) q
            = if k = q then some e0 else cacheGet t q from rfl, if_neg hk] at h
        exact ih h
  · rw [cacheGet_cacheRemove_ne c q p hq]
    exact h

/-- Removal only drops keys. -/
theorem cacheRemove_keys_sublist (c : RRDCache) (p : String) :
    ((cacheRemove c p).map Prod.fst).Sublist (c.map Prod.fst) := by
  induction c with
  | nil => simp [cacheRemove]
  | cons kv t ih =>
    obtain ⟨k, e0⟩ := kv
    by_cases hk : k = p
    · simp only [cacheRemove, if_pos hk, List.map_cons]
      exact List.sublist_cons_self ..
    · simp only [cacheRemove, if_neg hk, List.map_cons]
      exact List.Sublist.cons₂ _ ih

/-- The eviction pass never resurrects an absent key. -/
theorem removeKeys_get_none (c : RRDCache) (p : String) (ks : List String)
    (h : cacheGet c p = none) : cacheGet (removeKeys c ks) p = none := by
  induction ks generalizing c with
  | nil => exact h
  | cons k ks ih =>
    rw [show removeKeys c (k :: ks) = removeKeys (cacheRemove c k) ks from rfl]
    exact ih (cacheRemove c k) (cacheGet_cacheRemove_none c p k h)

/-- The eviction pass leaves unlisted keys alone. -/
theorem removeKeys_get_of_not_mem (c : RRDCache) (p : String) (ks : List String)
    (h : p ∉ ks) : cacheGet (removeKeys c ks) p = cacheGet c p := by
  induction ks generalizing c with
  | nil => rfl
  | cons k ks ih =>
    have hk : p ≠ k := fun hh => h (by simp [hh])
    have h2 : p ∉ ks := fun hh => h (List.mem_cons_of_mem _ hh)
    rw [show removeKeys c (k :: ks) = removeKeys (cacheRemove c k) ks from rfl]
    rw [ih (cacheRemove c k) h2]
    exact cacheGet_cacheRemove_ne c k p (fun hh => hk hh.symm)

/-- With no duplicate keys, the eviction pass removes every listed key. -/
theorem removeKeys_get_of_mem (c : RRDCache) (p : String) (ks : List String)
    (hnd : (c.map Prod.fst).Nodup) (h : p ∈ ks) :
    cacheGet (removeKeys c ks) p = none := by
  induction ks generalizing c with
  | nil => simp at h
  | cons k ks ih =>
    rw [show removeKeys c (k :: ks) = removeKeys (cacheRemove c k) ks from rfl]
    by_cases hk : k = p
    · subst hk
      exact removeKeys_get_none (cacheRemove c k) k ks
        (cacheGet_cacheRemove_self_nodup c k hnd)
    · have h2 : p ∈ ks := by
        rcases List.mem_cons.mp h with h' | h'
        · exact absurd h'.symm hk
        · exact h'
      exact ih (cacheRemove c k)
        (List.Nodup.sublist (cacheRemove_keys_sublist c k) hnd) h2

/-- Head shape of the traversal pass. -/
theorem flushPass1_cons_fst (now timeout : Int) (k : String) (rc : RRDCacheEntry)
    (t : RRDCache) :
    (flushPass1 now timeout ((k, rc) :: t)).1
      = (k, flushTransform now timeout rc) :: (flushPass1 now timeout t).1 := by
  by_cases h1 : rc.queued = true
  · simp [flushPass1, flushTransform, h1]
  · by_cases h2 : now - rc.first_value < timeout
    · simp [flushPass1, flushTransform, h1, h2]
    · by_cases h3 : 0 < rc.values.length
      · simp [flushPass1, flushTransform, h1, h2, h3]
      · simp [flushPass1, flushTransform, h1, h2, h3]

/-- The traversal pass acts pointwise on entries. -/
theorem flushPass1_get (now timeout : Int) (c : RRDCache) (p : String) :
    cacheGet (flushPass1 now timeout c).1 p
      = (cacheGet c p).map (flushTransform now timeout) := by
  induction c with
  | nil => simp [flushPass1, cacheGet]
  | cons kv t ih =>
    obtain ⟨k, rc⟩ := kv
    rw [flushPass1_cons_fst]
    by_cases hk : k = p
    · simp [cacheGet, hk]
    · simp [cacheGet, hk, ih]

/-- The traversal pass keeps the key list. -/
theorem flushPass1_keys (now timeout : Int) (c : RRDCache) :
    ((flushPass1 now timeout c).1).map Prod.fst = c.map Prod.fst := by
  induction c with
  | nil => simp [flushPass1]
  | cons kv t ih =>
    obtain ⟨k, rc⟩ := kv
    rw [flushPass1_cons_fst]
    simp [ih]

/-- Every key marked for eviction belongs to an empty entry of the input. -/
theorem flushPass1_rem_sub (now timeout : Int) (c : RRDCache) (q : String)
    (hq : q ∈ (flushPass1 now timeout c).2.2) :
    ∃ e, (q, e) ∈ c ∧ e.values = [] := by
  induction c with
  | nil => simp [flushPass1] at hq
  | cons kv t ih =>
    obtain ⟨k, rc⟩ := kv
    by_cases h1 : rc.queued = true
    · simp only [flushPass1, h1, if_true, ite_true] at hq
      obtain ⟨e, hm, he⟩ := ih hq
      exact ⟨e, List.mem_cons_of_mem _ hm, he⟩
    · by_cases h2 : now - rc.first_value < timeout
      · simp only [flushPass1, h1, h2, if_true, ite_true, if_false, Bool.false_eq_true,
          ite_false] at hq
        obtain ⟨e, hm, he⟩ := ih hq
        exact ⟨e, List.mem_cons_of_mem _ hm, he⟩
      · by_cases h3 : 0 < rc.values.length
        · simp only [flushPass1, h1, h2, h3, if_true, ite_true, if_false,
            Bool.false_eq_true, ite_false] at hq
          obtain ⟨e, hm, he⟩ := ih hq
          exact ⟨e, List.mem_cons_of_mem _ hm, he⟩
        · simp only [flushPass1, h1, h2, h3, if_true, ite_true, if_false,
            Bool.false_eq_true, ite_false, List.mem_cons] at hq
          rcases hq with rfl | hq
          · exact ⟨rc, List.mem_cons_self ..,
              List.length_eq_zero.mp (Nat.le_zero.mp (not_lt.mp h3))⟩
          · obtain ⟨e, hm, he⟩ := ih hq
            exact ⟨e, List.mem_cons_of_mem _ hm, he⟩

/-- A non-empty, unqueued, old-enough entry gets its file name enqueued by
the traversal pass. -/
theorem flushPass1_enq_mem (now timeout : Int) (c : RRDCache) (p : String)
    (e : RRDCacheEntry) (h : cacheGet c p = some e) (hq : e.queued = false)
    (ha : ¬ (now - e.first_value < timeout)) (hne : 0 < e.values.length) :
    p ∈ (flushPass1 now timeout c).2.1 := by
  induction c with
  | nil => simp [cacheGet] at h
  | cons kv t ih =>
    obtain ⟨k, rc⟩ := kv
    by_cases hk : k = p
    · subst hk
      have hrc : rc = e := by simpa [cacheGet] using h
      subst hrc
      simp [flushPass1, hq, ha, hne]
    · rw [show cacheGet ((k, rc) :: t) p
          = if k = p then some rc else cacheGet t p from rfl, if_neg hk] at h
      have hmem := ih h
      by_cases h1 : rc.queued = true
      · simpa [flushPass1, h1] using hmem
      · by_cases h2 : now - rc.first_value < timeout
        · simpa [flushPass1, h1, h2] using hmem
        · by_cases h3 : 0 < rc.values.length
          · simp [flushPass1, h1, h2, h3]
            exact Or.inr hmem
          · simpa [flushPass1, h1, h2, h3] using hmem

/-- An empty, unqueued, old-enough entry gets its key marked for eviction by
the traversal pass. -/
theorem flushPass1_rem_mem (now timeout : Int) (c : RRDCache) (p : String)
    (e : RRDCacheEntry) (h : cacheGet c p = some e) (hq : e.queued = false)
    (ha : ¬ (now - e.first_value < timeout)) (hemp : e.values = []) :
    p ∈ (flushPass1 now timeout c).2.2 := by
  induction c with
  | nil => simp [cacheGet] at h
  | cons kv t ih =>
    obtain ⟨k, rc⟩ := kv
    by_cases hk : k = p
    · subst hk
      have hrc : rc = e := by simpa [cacheGet] using h
      subst hrc
      simp [flushPass1, hq, ha, hemp]
    · rw [show cacheGet ((k, rc) :: t) p
          = if k = p then some rc else cacheGet t p from rfl, if_neg hk] at h
      have hmem := ih h
      by_cases h1 : rc.queued = true
      · simpa [flushPass1, h1] using hmem
      · by_cases h2 : now - rc.first_value < timeout
        · simpa [flushPass1, h1, h2] using hmem
        · by_cases h3 : 0 < rc.values.length
          · simpa [flushPass1, h1, h2, h3] using hmem
          · simp [flushPass1, h1, h2, h3]
            exact Or.inr hmem

/-- C5 counterexample: at the shutdown sentinel timeout `-1`, a non-empty,
unqueued entry whose `first_value` lies more than one second in the future of
`now` (age `now - first_value < -1`) is skipped by the age test of line 621:
it is neither enqueued nor marked QUEUED, although the claim says every
non-empty non-queued entry is enqueued regardless of its age. -/
theorem rrd_flush_sentinel_counterexample :
    entFuture.values ≠ [] ∧ entFuture.queued = false
    ∧ ((0 : Int) - entFuture.first_value < -1)
    ∧ rrd_cache_flush 0 (-1) [(keyA, entFuture)] = ([(keyA, entFuture)], []) :=
  ⟨by decide, rfl, by decide, rfl⟩

/-- C5 amended: a flush pass with the shutdown sentinel timeout `-1`, on a
mapping without duplicate keys in which every queued entry is non-empty (an
invariant of all reachable caches), enqueues every entry that has a non-empty
buffer, is not already QUEUED, and whose `first_value` is at most `now + 1`
(i.e. unless its age is below `-1`, which only a future-dated first sample
can produce), marking it QUEUED; and every entry whose buffer is empty and
whose age is at least the `-1` horizon is removed from the mapping in the
second pass. -/
theorem rrd_flush_sentinel_spec (now : Int) (c : RRDCache) (p : String)
    (e : RRDCacheEntry)
    (hnd : (c.map Prod.fst).Nodup)
    (hqinv : ∀ kv ∈ c, kv.2.queued = true → kv.2.values ≠ [])
    (hget : cacheGet c p = some e)
    (hage : -1 ≤ now - e.first_value) :
    (e.queued = false → e.values ≠ [] →
       cacheGet (rrd_cache_flush now (-1) c).1 p = some { e with queued := true }
       ∧ p ∈ (rrd_cache_flush now (-1) c).2)
    ∧ (e.values = [] → cacheGet (rrd_cache_flush now (-1) c).1 p = none) := by
  have hnotage : ¬ (now - e.first_value < -1) := not_lt.mpr hage
  constructor
  · intro hq hne
    have hlen : 0 < e.values.length := List.length_pos.mpr hne
    have hnotrem : p ∉ (flushPass1 now (-1) c).2.2 := by
      intro hmem
      obtain ⟨e', hmc, he'⟩ := flushPass1_rem_sub now (-1) c p hmem
      rw [mem_entry_eq_of_nodup c p e e' hnd hget hmc] at he'
      exact hne he'
    constructor
    · show cacheGet (removeKeys (flushPass1 now (-1) c).1
          (flushPass1 now (-1) c).2.2) p = _
      rw [removeKeys_get_of_not_mem _ _ _ hnotrem, flushPass1_get, hget]
      simp [flushTransform, hq, hnotage, hlen]
    · exact flushPass1_enq_mem now (-1) c p e hget hq hnotage hlen
  · intro hemp
    have hq : e.queued = false := by
      cases hqe : e.queued
      · rfl
      · exact absurd hemp (hqinv (p, e) (cacheGet_mem c p e hget) hqe)
    have hrem : p ∈ (flushPass1 now (-1) c).2.2 :=
      flushPass1_rem_mem now (-1) c p e hget hq hnotage hemp
    have hndF : (((flushPass1 now (-1) c).1).map Prod.fst).Nodup := by
      rw [flushPass1_keys]
      exact hnd
    show cacheGet (removeKeys (flushPass1 now (-1) c).1
        (flushPass1 now (-1) c).2.2) p = none
    exact removeKeys_get_of_mem _ p _ hndF hrem

/-- Witness for `rrd_flush_sentinel_spec` at a concrete input: a two-entry
cache, looked up at the non-empty entry. -/
theorem rrd_flush_sentinel_spec_witness :
    (([(keyA, entA), (keyB, entEmptyB)] : RRDCache).map Prod.fst).Nodup
    ∧ (∀ kv ∈ ([(keyA, entA), (keyB, entEmptyB)] : RRDCache),
        kv.2.queued = true → kv.2.values ≠ [])
    ∧ cacheGet [(keyA, entA), (keyB, entEmptyB)] keyA = some entA
    ∧ (-1 : Int) ≤ 5 - entA.first_value
    ∧ ((entA.queued = false → entA.values ≠ [] →
         cacheGet (rrd_cache_flush 5 (-1) [(keyA, entA), (keyB, entEmptyB)]).1 keyA
           = some { entA with queued := true }
         ∧ keyA ∈ (rrd_cache_flush 5 (-1) [(keyA, entA), (keyB, entEmptyB)]).2)
       ∧ (entA.values = [] →
           cacheGet (rrd_cache_flush 5 (-1) [(keyA, entA), (keyB, entEmptyB)]).1 keyA
             = none)) :=
  ⟨by decide, by decide, rfl, by decide,
   rrd_flush_sentinel_spec 5 [(keyA, entA), (keyB, entEmptyB)] keyA entA
     (by decide) (by decide) rfl (by decide)⟩

/-- The integer skip test of `rra_get` agrees with the spec's rational one:
`span / stepsize < rrarows` under C truncating division is the same as
`span < rrarows * stepsize`. -/
theorem rra_skip_iff (span step rows : Int) (hstep : 0 < step) (hrows : 0 < rows) :
    span.tdiv step < rows ↔ span < rows * step := by
  by_cases hs : 0 ≤ span
  · rw [Int.tdiv_eq_ediv hs (le_of_lt hstep)]
    exact Int.ediv_lt_iff_lt_mul hstep
  · push_neg at hs
    have h2 : (-span).tdiv step = -(span.tdiv step) := Int.neg_tdiv span step
    have h3 : 0 ≤ (-span).tdiv step := Int.tdiv_nonneg (by omega) (le_of_lt hstep)
    have h4 : span.tdiv step ≤ 0 := by omega
    constructor
    · intro _
      exact lt_trans hs (mul_pos hrows hstep)
    · intro _
      exact lt_of_le_of_lt h4 hrows

/-- An accepted timespan is at least `rrarows * stepsize`. -/
theorem rra_accept_le (span step rows : Int) (hstep : 0 < step) (hrows : 0 < rows)
    (h : ¬ span.tdiv step < rows) : rows * step ≤ span :=
  not_lt.mp (fun hh => h ((rra_skip_iff span step rows hstep hrows).mpr hh))

/-- The recomputed consolidation length of an accepted timespan is positive. -/
theorem rra_len_pos (span step rows : Int) (hstep : 0 < step) (hrows : 0 < rows)
    (h : rows * step ≤ span) : 1 ≤ span.fdiv (rows * step) := by
  have hpos : 0 < rows * step := mul_pos hrows hstep
  rw [Int.fdiv_eq_ediv _ (le_of_lt hpos)]
  exact (Int.le_ediv_iff_mul_le hpos).mpr (by omega)

/-- Loop-level agreement of `rra_get` with the spec's synthesizer: the C
local `cdp_len` is zero exactly while no timespan has been accepted. -/
theorem rra_go_eq (stepsize rrarows : Int) (hstep : 0 < stepsize)
    (hrows : 0 < rrarows) :
    ∀ (rts : List Int) (prev : Int) (first : Bool), (first = true ↔ prev = 0) →
      rra_get_go stepsize rrarows prev rts = rra_spec_go stepsize rrarows first rts := by
  intro rts
  induction rts with
  | nil => intro prev first _; rfl
  | cons span rest ih =>
    intro prev first hinv
    by_cases hskip : span.tdiv stepsize < rrarows
    · have hskip' : span < rrarows * stepsize :=
        (rra_skip_iff span stepsize rrarows hstep hrows).mp hskip
      rw [show rra_get_go stepsize rrarows prev (span :: rest)
          = rra_get_go stepsize rrarows prev rest from by simp [rra_get_go, hskip]]
      rw [show rra_spec_go stepsize rrarows first (span :: rest)
          = rra_spec_go stepsize rrarows first rest from by simp [rra_spec_go, hskip']]
      exact ih prev first hinv
    · have hskip' : ¬ span < rrarows * stepsize :=
        fun hh => hskip ((rra_skip_iff span stepsize rrarows hstep hrows).mpr hh)
      have hle : rrarows * stepsize ≤ span :=
        rra_accept_le span stepsize rrarows hstep hrows hskip
      have hlen_eq : (if prev = 0 then 1 else span.fdiv (rrarows * stepsize))
          = (if first = true then 1 else span.fdiv (rrarows * stepsize)) := by
        by_cases hp : prev = 0
        · rw [if_pos hp, if_pos (hinv.mpr hp)]
        · rw [if_neg hp, if_neg (fun hf => hp (hinv.mp hf))]
      have hlen_ne : (if prev = 0 then 1 else span.fdiv (rrarows * stepsize)) ≠ 0 := by
        by_cases hp : prev = 0
        · simp [hp]
        · rw [if_neg hp]
          have := rra_len_pos span stepsize rrarows hstep hrows hle
          omega
      simp only [rra_get_go, rra_spec_go, if_neg hskip, if_neg hskip']
      rw [← hlen_eq]
      rw [ih (if prev = 0 then 1 else span.fdiv (rrarows * stepsize)) false
        (by simp [hlen_ne])]

/-- C7: the schema synthesizer `rra_get` agrees with the spec's description
on every configuration and timespan list: it fails exactly when
`stepsize <= 0` or `rrarows <= 0`; otherwise it skips each timespan with
`span / stepsize < rrarows`, uses consolidation length 1 for the first
accepted timespan and `floor (span / (rrarows * stepsize))` for every later
one, and row count `ceil (span / (cdp_len * stepsize))` for each. -/
theorem rra_get_matches_spec (stepsize rrarows : Int) (rts : List Int) :
    rra_get stepsize rrarows rts = rra_get_spec stepsize rrarows rts := by
  by_cases hbad : stepsize ≤ 0 ∨ rrarows ≤ 0
  · simp [rra_get, rra_get_spec, hbad]
  · push_neg at hbad
    obtain ⟨h1, h2⟩ := hbad
    rw [show rra_get stepsize rrarows rts
        = some (rra_get_go stepsize rrarows 0 rts) from by
      simp [rra_get, not_le.mpr h1, not_le.mpr h2]]
    rw [show rra_get_spec stepsize rrarows rts
        = some (rra_spec_go stepsize rrarows true rts) from by
      simp [rra_get_spec, not_le.mpr h1, not_le.mpr h2]]
    rw [rra_go_eq stepsize rrarows h1 h2 rts 0 true (by simp)]

/-- Membership after `cacheSet`: the written pair or an original one. -/
theorem cacheSet_mem (c : RRDCache) (p : String) (e : RRDCacheEntry)
    (kv : String × RRDCacheEntry) (h : kv ∈ cacheSet c p e) :
    kv = (p, e) ∨ kv ∈ c := by
  induction c with
  | nil =>
    simp [cacheSet] at h
    exact Or.inl h
  | cons kv0 t ih =>
    obtain ⟨k, e0⟩ := kv0
    by_cases hk : k = p
    · rw [show cacheSet ((k, e0) :: t) p e = (p, e) :: t from by simp [cacheSet, hk]] at h
      rcases List.mem_cons.mp h with h1 | h1
      · exact Or.inl h1
      · exact Or.inr (List.mem_cons_of_mem _ h1)
    · rw [show cacheSet ((k, e0) :: t) p e = (k, e0) :: cacheSet t p e from by
        simp [cacheSet, hk]] at h
      rcases List.mem_cons.mp h with h1 | h1
      · exact Or.inr (by simp [h1])
      · rcases ih h1 with h2 | h2
        · exact Or.inl h2
        · exact Or.inr (List.mem_cons_of_mem _ h2)

/-- Removal yields a sublist of the mapping. -/
theorem cacheRemove_sublist (c : RRDCache) (p : String) :
    (cacheRemove c p).Sublist c := by
  induction c with
  | nil => simp [cacheRemove]
  | cons kv t ih =>
    obtain ⟨k, e0⟩ := kv
    by_cases hk : k = p
    · rw [show cacheRemove ((k, e0) :: t) p = t from by simp [cacheRemove, hk]]
      exact List.sublist_cons_self ..
    · rw [show cacheRemove ((k, e0) :: t) p = (k, e0) :: cacheRemove t p from by
        simp [cacheRemove, hk]]
      exact List.Sublist.cons₂ _ ih

/-- The eviction pass yields a sublist of the mapping. -/
theorem removeKeys_sublist (c : RRDCache) (ks : List String) :
    (removeKeys c ks).Sublist c := by
  induction ks generalizing c with
  | nil => exact List.Sublist.refl c
  | cons k ks ih =>
    rw [show removeKeys c (k :: ks) = removeKeys (cacheRemove c k) ks from rfl]
    exact List.Sublist.trans (ih (cacheRemove c k)) (cacheRemove_sublist c k)

/-- The traversal pass is a per-entry map. -/
theorem flushPass1_fst_eq_map (now timeout : Int) (c : RRDCache) :
    (flushPass1 now timeout c).1
      = c.map (fun kv => (kv.1, flushTransform now timeout kv.2)) := by
  induction c with
  | nil => simp [flushPass1]
  | cons kv t ih =>
    obtain ⟨k, rc⟩ := kv
    rw [flushPass1_cons_fst, ih]
    rfl

/-- The per-entry flush effect touches only the flag, so it preserves entry
well-formedness. -/
theorem flushTransform_entryWf (now timeout : Int) (e : RRDCacheEntry)
    (h : EntryWf e) : EntryWf (flushTransform now timeout e) := by
  by_cases h1 : e.queued = true
  · simpa [flushTransform, h1] using h
  · by_cases h2 : now - e.first_value < timeout
    · simpa [flushTransform, h1, h2] using h
    · by_cases h3 : 0 < e.values.length
      · simp only [flushTransform, h1, h2, h3, Bool.false_eq_true, if_false,
          ite_false, if_true, ite_true]
        obtain ⟨hs, hb⟩ := h
        exact ⟨by simpa [entryTs] using hs, by simpa [entryTs] using hb⟩
      · simpa [flushTransform, h1, h2, h3] using h

/-- The fresh entry is well-formed. -/
theorem entryWf_fresh : EntryWf freshEntry := by
  constructor <;> simp [freshEntry, entryTs]

/-- Appending a strictly later record preserves entry well-formedness, for
any resulting `first_value` and flag. -/
theorem entryWf_append (e : RRDCacheEntry) (v : String) (ts f : Int) (qb : Bool)
    (h : EntryWf e) (hlt : e.last_value < ts) :
    EntryWf ⟨e.values ++ [(v, ts)], f, ts, qb⟩ := by
  obtain ⟨hs, hb⟩ := h
  have hts : entryTs ⟨e.values ++ [(v, ts)], f, ts, qb⟩ = entryTs e ++ [ts] := by
    simp [entryTs]
  constructor
  · rw [hts, List.pairwise_append]
    refine ⟨hs, List.pairwise_singleton .., ?_⟩
    intro x hx y hy
    rw [List.mem_singleton] at hy
    subst hy
    exact lt_of_le_of_lt (hb x hx) hlt
  · intro t ht
    rw [hts] at ht
    rcases List.mem_append.mp ht with h1 | h2
    · exact le_of_lt (lt_of_le_of_lt (hb t h1) hlt)
    · rw [List.mem_singleton] at h2
      exact le_of_eq h2

/-- Writing a well-formed entry preserves mapping well-formedness. -/
theorem cacheWf_cacheSet (c : RRDCache) (p : String) (e : RRDCacheEntry)
    (hc : CacheWf c) (he : EntryWf e) : CacheWf (cacheSet c p e) := by
  intro kv hkv
  rcases cacheSet_mem c p e kv hkv with h1 | h1
  · rw [h1]
    exact he
  · exact hc kv h1

/-- `rrd_cache_insert` (any `cache_timeout`, allocations succeeding)
preserves mapping well-formedness. -/
theorem cacheWf_insert (ct : Int) (c : RRDCache) (p v : String) (ts : Int)
    (hc : CacheWf c) : CacheWf (rrd_cache_insert true ct c p v ts).2 := by
  by_cases hacc : (entryOrFresh c p).last_value < ts
  · rw [rrd_cache_insert_accept_eq ct c p v ts hacc]
    have hwf_e : EntryWf (entryOrFresh c p) := by
      cases hg : cacheGet c p with
      | none => simpa [entryOrFresh, hg] using entryWf_fresh
      | some e0 =>
        have := hc (p, e0) (cacheGet_mem c p e0 hg)
        simpa [entryOrFresh, hg] using this
    by_cases hq : ct ≤ ts - (if (entryOrFresh c p).values = [] then ts
        else (entryOrFresh c p).first_value) ∧ (entryOrFresh c p).queued = false
    · rw [if_pos hq]
      exact cacheWf_cacheSet c p _ hc (entryWf_append (entryOrFresh c p) v ts _ true hwf_e hacc)
    · rw [if_neg hq]
      exact cacheWf_cacheSet c p _ hc
        (entryWf_append (entryOrFresh c p) v ts _ (entryOrFresh c p).queued hwf_e hacc)
  · rw [rrd_cache_insert_reject_eq true ct c p v ts (not_lt.mp hacc)]
    exact hc

/-- A flush pass preserves mapping well-formedness. -/
theorem cacheWf_flush (now timeout : Int) (c : RRDCache) (hc : CacheWf c) :
    CacheWf (rrd_cache_flush now timeout c).1 := by
  intro kv hkv
  have hkv' : kv ∈ removeKeys (flushPass1 now timeout c).1
      (flushPass1 now timeout c).2.2 := hkv
  have h1 : kv ∈ (flushPass1 now timeout c).1 :=
    (removeKeys_sublist (flushPass1 now timeout c).1
      (flushPass1 now timeout c).2.2).subset hkv'
  rw [flushPass1_fst_eq_map] at h1
  obtain ⟨kv0, hkv0, hmap⟩ := List.mem_map.mp h1
  rw [← hmap]
  exact flushTransform_entryWf now timeout kv0.2 (hc kv0 hkv0)

/-- One full-trace step preserves mapping well-formedness, for every
configuration. -/
theorem cacheWf_stepF (ct cft : Int) (s : EngineStateF) (op : CacheOpF)
    (h : CacheWf s.cache) : CacheWf (stepOpF ct cft s op).cache := by
  cases op with
  | submit p v ts now =>
    by_cases hacc : (entryOrFresh s.cache p).last_value < ts
    · simp only [stepOpF]
      rw [rrd_cache_insert_flush_ok ct cft s.cache s.cache_flush_last p v ts now hacc]
      by_cases hcond : 0 < ct ∧ cft < now - s.cache_flush_last
      · rw [if_pos hcond]
        exact cacheWf_flush now cft _ (cacheWf_insert ct s.cache p v ts h)
      · rw [if_neg hcond]
        exact cacheWf_insert ct s.cache p v ts h
    · simp only [stepOpF]
      rw [rrd_cache_insert_flush_reject_eq ct cft s.cache s.cache_flush_last p v ts now
        (not_lt.mp hacc)]
      exact h
  | drain p =>
    simp only [stepOpF]
    cases hg : cacheGet s.cache p with
    | none => exact h
    | some rc =>
      exact cacheWf_cacheSet s.cache p _ h ⟨by simp [entryTs], by simp [entryTs]⟩

/-- Running any full-trace operation list preserves mapping well-formedness. -/
theorem cacheWf_runF (ct cft : Int) (ops : List CacheOpF) (s : EngineStateF)
    (h : CacheWf s.cache) : CacheWf (runOpsF ct cft s ops).cache := by
  induction ops generalizing s with
  | nil => exact h
  | cons op rest ih => exact ih (stepOpF ct cft s op) (cacheWf_stepF ct cft s op h)

/-- At `cache_timeout = 0` the flush trigger of line 774 is dead, and a full
step projects onto a flushless one. -/
theorem projF_stepOp_zero (cft : Int) (s : EngineStateF) (op : CacheOpF) :
    projF (stepOpF 0 cft s op) = stepOp 0 (projF s) (opOfF op) := by
  cases op with
  | submit p v ts now =>
    by_cases hacc : (entryOrFresh s.cache p).last_value < ts
    · simp only [stepOpF, opOfF, stepOp, projF]
      rw [rrd_cache_insert_flush_ok 0 cft s.cache s.cache_flush_last p v ts now hacc]
      rw [if_neg (by simp)]
    · have hle := not_lt.mp hacc
      simp only [stepOpF, opOfF, stepOp, projF]
      rw [rrd_cache_insert_flush_reject_eq 0 cft s.cache s.cache_flush_last p v ts now hle]
      rw [rrd_cache_insert_reject_eq true 0 s.cache p v ts hle]
  | drain p =>
    simp only [stepOpF, opOfF, stepOp, projF]
    cases hg : cacheGet s.cache p with
    | none => rfl
    | some rc => rfl

/-- At `cache_timeout = 0` a full run projects onto a flushless one. -/
theorem projF_run (cft : Int) (ops : List CacheOpF) (s : EngineStateF) :
    projF (runOpsF 0 cft s ops) = runOps 0 (projF s) (ops.map opOfF) := by
  induction ops generalizing s with
  | nil => rfl
  | cons op rest ih =>
    simp only [runOpsF, runOps, List.map]
    rw [ih (stepOpF 0 cft s op), projF_stepOp_zero]

/-- C1 counterexample: with `cache_timeout = 1` and `cache_flush_timeout =
0`, a sequence of submits and drains makes the per-path update timestamp
sequence decrease.  The opportunistic flush inside the third submit (lines
773-775) evicts the drained, empty entry of path `a` (lines 628-662); the
fourth submit then starts path `a` afresh at `last_value = 0` (line 689) and
accepts timestamp 3 although timestamp 5 was already written, so the updates
for `a` are `[5, 3]`. -/
theorem rrd_trace_monotone_counterexample :
    updatesFor keyA (runOpsF 1 0 initEngineF
        [CacheOpF.submit keyA valX 5 1, CacheOpF.drain keyA,
         CacheOpF.submit keyB valY 1 20,
         CacheOpF.submit keyA valZ 3 20, CacheOpF.drain keyA]).updates = [5, 3]
    ∧ ¬ List.Pairwise (· < ·) (updatesFor keyA (runOpsF 1 0 initEngineF
        [CacheOpF.submit keyA valX 5 1, CacheOpF.drain keyA,
         CacheOpF.submit keyB valY 1 20,
         CacheOpF.submit keyA valZ 3 20, CacheOpF.drain keyA]).updates) :=
  ⟨by decide, by decide⟩

/-- C1 amended: for every configuration and every sequence of submit and
drain operations from start-up -- submit modelled in full, with the
opportunistic flush pass of lines 773-775 -- every entry's buffered records
are sorted strictly increasing by sample timestamp; and when
`cache_timeout = 0` (caching disabled, the default, under which the flush
pass never runs) the per-path sequence of timestamps handed to the archive
`update` primitive is strictly increasing. -/
theorem rrd_trace_monotone_amended (ct cft : Int) (ops : List CacheOpF) (p : String) :
    (∀ e, cacheGet (runOpsF ct cft initEngineF ops).cache p = some e →
        List.Pairwise (· < ·) (entryTs e))
    ∧ (ct = 0 →
        List.Pairwise (· < ·)
          (updatesFor p (runOpsF ct cft initEngineF ops).updates)) := by
  constructor
  · intro e he
    have hwf : CacheWf (runOpsF ct cft initEngineF ops).cache :=
      cacheWf_runF ct cft ops initEngineF (fun kv hkv => absurd hkv (by simp [initEngineF]))
    exact (hwf (p, e) (cacheGet_mem _ p e he)).1
  · intro hct
    subst hct
    have hproj := projF_run cft ops initEngineF
    have hupd : (runOpsF 0 cft initEngineF ops).updates
        = (runOps 0 initEngine (List.map opOfF ops)).updates := by
      have h2 := congrArg EngineState.updates hproj
      simpa [projF, initEngineF, initEngine] using h2
    rw [hupd]
    exact runOps_updates_monotone 0 (List.map opOfF ops) p

/-- Witness for `rrd_trace_monotone_amended` at `cache_timeout = 0`: two
accepted submits separated by a drain; the hypotheses are discharged at the
concrete final entry and the literal `0`. -/
theorem rrd_trace_monotone_amended_witness :
    cacheGet (runOpsF 0 0 initEngineF
        [CacheOpF.submit keyA valX 1 0, CacheOpF.drain keyA,
         CacheOpF.submit keyA valY 2 0]).cache keyA
      = some ⟨[(valY, 2)], 2, 2, true⟩
    ∧ List.Pairwise (· < ·) (entryTs (⟨[(valY, 2)], 2, 2, true⟩ : RRDCacheEntry))
    ∧ (0 : Int) = 0
    ∧ List.Pairwise (· < ·) (updatesFor keyA (runOpsF 0 0 initEngineF
        [CacheOpF.submit keyA valX 1 0, CacheOpF.drain keyA,
         CacheOpF.submit keyA valY 2 0]).updates) :=
  ⟨by decide,
   (rrd_trace_monotone_amended 0 0
     [CacheOpF.submit keyA valX 1 0, CacheOpF.drain keyA,
      CacheOpF.submit keyA valY 2 0] keyA).1 ⟨[(valY, 2)], 2, 2, true⟩ (by decide),
   rfl,
   (rrd_trace_monotone_amended 0 0
     [CacheOpF.submit keyA valX 1 0, CacheOpF.drain keyA,
      CacheOpF.submit keyA valY 2 0] keyA).2 rfl⟩
